import Mathlib

/-!
Verification of the ev dice-roll utility (src/main.rs).

Strings are modelled as lists of characters.  Every character the parser
inspects (decimal digits, the letter d, the signs) is a single-byte ASCII
character, so the byte positions computed by the Rust code coincide with
character positions and the char-list model is faithful; a multi-byte
character never matches the digit test (its bytes are all at least 0x80)
and so stops the digit scan exactly as a non-digit ASCII byte does.

The f32 arithmetic of the statistics is modelled by the function rn:
round-to-nearest, ties-to-even with a 24-bit significand over the
rationals and an unbounded exponent, applied once per arithmetic
operation, exactly as Rust evaluates the f32 expressions.  Over the
magnitudes reachable from a u16/i16 Roll (every intermediate value is
zero or has magnitude between 2 ^ -1 and 2 ^ 33) this coincides with
IEEE-754 binary32, whose exponent limits only matter below 2 ^ -126 or
at 2 ^ 128 and above.
-/

namespace Ev

/-- MAX_DIGITS from main.rs line 18: the cap on the digit scan. -/
def MAX_DIGITS : Nat := 5

/-- EvError from main.rs lines 46-54. -/
inductive EvError where
  | InvalidFormat
  | MissingNumberOfDice
  | MissingNumberOfSides
  | MissingExtra
  | TooManyDice
  | TooManySides
  | ExtraTooLarge
deriving DecidableEq

/-- Roll from main.rs lines 84-88.  num_dice and num_faces are u16 in Rust
and extra is i16; they are modelled as Nat and Int.  parse never builds a
value outside the machine ranges (claim 10), so no wrap-around is modelled. -/
structure Roll where
  num_dice : Nat
  num_faces : Nat
  extra : Int
deriving DecidableEq

/-- The digit test of read_digits (main.rs line 177): a byte between
ASCII 0 (48) and ASCII 9 (57). -/
def isDigitC (c : Char) : Bool := decide (48 ≤ c.toNat ∧ c.toNat ≤ 57)

/-- The loop of read_digits (main.rs lines 174-183) with its running
counter i.  The disjunct i >= s.len() of the Rust break condition can
never fire (i equals the position of the current byte) and is dropped. -/
def read_digitsAux : List Char → Nat → Nat
  | [], i => i
  | c :: cs, i =>
    if MAX_DIGITS ≤ i then i
    else if isDigitC c then read_digitsAux cs (i + 1)
    else i

/-- read_digits from main.rs lines 174-183: the length of the leading run
of ASCII digits, capped at MAX_DIGITS. -/
def read_digits (s : List Char) : Nat := read_digitsAux s 0

/-- The Rust string slice s[0 .. i]: defined (no panic) iff i is in
bounds.  In the char-list model every position is a character boundary. -/
def strTake (s : List Char) (i : Nat) : Option (List Char) :=
  if i ≤ s.length then some (s.take i) else none

/-- The Rust string slice s[i ..]. -/
def strDrop (s : List Char) (i : Nat) : Option (List Char) :=
  if i ≤ s.length then some (s.drop i) else none

/-- Value of a string of decimal digits, most significant first
(accumulator form). -/
def digitsValAux : List Char → Nat → Nat
  | [], acc => acc
  | c :: cs, acc => digitsValAux cs (10 * acc + (c.toNat - 48))

def digitsVal (cs : List Char) : Nat := digitsValAux cs 0

/-- Model of str::parse::<u16> at its use sites in parse (main.rs lines
189 and 200): there the slice is always a run of decimal digits, and the
conversion succeeds iff the value fits in u16. -/
def u16_from_str (cs : List Char) : Option Nat :=
  if cs ≠ [] ∧ cs.all isDigitC = true ∧ digitsVal cs ≤ 65535 then
    some (digitsVal cs)
  else none

/-- Model of str::parse::<i16> at its use site in parse (main.rs line
208): an optional sign followed by decimal digits, value in the i16
range. -/
def i16_from_str (cs : List Char) : Option Int :=
  match cs with
  | '+' :: ds =>
    if ds ≠ [] ∧ ds.all isDigitC = true ∧ digitsVal ds ≤ 32767 then
      some ((digitsVal ds : Int))
    else none
  | '-' :: ds =>
    if ds ≠ [] ∧ ds.all isDigitC = true ∧ digitsVal ds ≤ 32768 then
      some (-((digitsVal ds : Int)))
    else none
  | ds =>
    if ds ≠ [] ∧ ds.all isDigitC = true ∧ digitsVal ds ≤ 32767 then
      some ((digitsVal ds : Int))
    else none

/-- Lines 203-216 of parse: the optional signed extra and the final
all-input-consumed check.  starts_with on a sign character followed by the
slice [1..] is rendered as a head pattern (starts_with guarantees the
slice is in bounds).  The value none models a panic of the Rust code. -/
def parseExtraStage (nd nf : Nat) (s3 : List Char) : Option (Except EvError Roll) :=
  match s3 with
  | c :: s4 =>
    if c = '+' ∨ c = '-' then
      let k := read_digits s4
      if k = 0 then some (.error .MissingExtra)
      else if MAX_DIGITS ≤ k then some (.error .ExtraTooLarge)
      else
        match strTake s3 (k + 1) with
        | none => none
        | some es =>
          match i16_from_str es with
          | none => some (.error .ExtraTooLarge)
          | some ex =>
            match strDrop s3 (k + 1) with
            | none => none
            | some s5 =>
              if s5 = [] then some (.ok ⟨nd, nf, ex⟩)
              else some (.error .InvalidFormat)
    else some (.error .InvalidFormat)
  | [] => some (.ok ⟨nd, nf, 0⟩)

/-- Lines 197-201 of parse: the number of sides. -/
def parseSidesStage (nd : Nat) (s2 : List Char) : Option (Except EvError Roll) :=
  let j := read_digits s2
  if j = 0 then some (.error .MissingNumberOfSides)
  else if MAX_DIGITS ≤ j then some (.error .TooManySides)
  else
    match strTake s2 j with
    | none => none
    | some fs =>
      match u16_from_str fs with
      | none => some (.error .TooManySides)
      | some nf =>
        match strDrop s2 j with
        | none => none
        | some s3 => parseExtraStage nd nf s3

/-- parse from main.rs lines 185-217, split into its three sequential
blocks (dice count here, then parseSidesStage and parseExtraStage).  The
value none models a panic (an out-of-bounds slice); claim 9 proves it is
never produced. -/
def parse (s : List Char) : Option (Except EvError Roll) :=
  let i := read_digits s
  if i = 0 then some (.error .MissingNumberOfDice)
  else if MAX_DIGITS ≤ i then some (.error .TooManyDice)
  else
    match strTake s i with
    | none => none
    | some ds =>
      match u16_from_str ds with
      | none => some (.error .TooManyDice)
      | some nd =>
        match strDrop s i with
        | none => none
        | some s1 =>
          match s1 with
          | 'd' :: s2 => parseSidesStage nd s2
          | _ => some (.error .InvalidFormat)

/-- Fuelled binary logarithm on the naturals: for 1 ≤ n ≤ fuel this is
the floor of the base-2 logarithm of n. -/
def nlog2 : Nat → Nat → Nat
  | 0, _ => 0
  | fuel + 1, n => if n ≤ 1 then 0 else nlog2 fuel (n / 2) + 1

/-- Floor of the base-2 logarithm of a positive natural. -/
def natLog2 (n : Nat) : Nat := nlog2 n n

/-- Floor of the base-2 logarithm of the absolute value of a nonzero
rational: the unique l with 2 ^ l ≤ abs x < 2 ^ (l + 1). -/
def qfloorLog2 (x : ℚ) : ℤ :=
  let c : ℤ := (natLog2 x.num.natAbs : ℤ) - (natLog2 x.den : ℤ)
  if (2 : ℚ) ^ c ≤ |x| then c else c - 1

/-- Round a rational to the nearest integer, ties to even. -/
def rhe (q : ℚ) : ℤ :=
  if q - ⌊q⌋ < 1 / 2 then ⌊q⌋
  else if 1 / 2 < q - ⌊q⌋ then ⌊q⌋ + 1
  else if ⌊q⌋ % 2 = 0 then ⌊q⌋ else ⌊q⌋ + 1

/-- Round a rational to the nearest f32 value: round-to-nearest,
ties-to-even at 24 significand bits.  The exponent is unbounded; by the
soundness argument in the file header this coincides with IEEE-754
binary32 on every value the statistics of a Roll can produce. -/
def rn (x : ℚ) : ℚ :=
  if x = 0 then 0
  else ((rhe (x / 2 ^ (qfloorLog2 x - 23)) : ℚ)) * 2 ^ (qfloorLog2 x - 23)

/-- f32 addition: one rounding per operation, as Rust evaluates +. -/
def fadd (x y : ℚ) : ℚ := rn (x + y)

/-- f32 multiplication. -/
def fmul (x y : ℚ) : ℚ := rn (x * y)

/-- f32 division. -/
def fdiv (x y : ℚ) : ℚ := rn (x / y)

/-- float_values (main.rs lines 102-106): the integer fields converted
to f32.  The u16 and i16 ranges lie inside the 24-bit significand, so
these conversions are exact; the rounding is kept for faithfulness. -/
def Roll.float_values (r : Roll) : ℚ × ℚ × ℚ :=
  (rn (r.num_dice : ℚ), rn (r.num_faces : ℚ), rn (r.extra : ℚ))

/-- ev (main.rs lines 110-118): expected value of one die times the
number of dice, plus the extra (added once); every f32 operation
rounds. -/
def Roll.ev (r : Roll) : ℚ :=
  let (nd, nf, extra) := r.float_values
  let single_die_ev := fdiv (fadd nf 1) 2
  fadd (fmul nd single_die_ev) extra

/-- min (main.rs lines 121-124). -/
def Roll.min (r : Roll) : ℚ :=
  let (nd, _, extra) := r.float_values
  fadd nd extra

/-- max (main.rs lines 127-130). -/
def Roll.max (r : Roll) : ℚ :=
  let (nd, nf, extra) := r.float_values
  fadd (fmul nd nf) extra

/-- One decimal digit as a character. -/
def decimalChar (d : Nat) : Char :=
  match d with
  | 0 => '0' | 1 => '1' | 2 => '2' | 3 => '3' | 4 => '4'
  | 5 => '5' | 6 => '6' | 7 => '7' | 8 => '8' | _ => '9'

/-- Decimal digits of n, most significant first (fuel-driven). -/
def natToCharsAux : Nat → Nat → List Char
  | 0, _ => []
  | fuel + 1, n =>
    if n = 0 then []
    else natToCharsAux fuel (n / 10) ++ [decimalChar (n % 10)]

/-- Decimal rendering of a nonnegative integer, as Rust Display for u16. -/
def natToChars (n : Nat) : List Char :=
  if n = 0 then ['0'] else natToCharsAux (n + 1) n

/-- Display for Roll (main.rs lines 147-155): XdY with the extra appended
in always-signed form when it is nonzero. -/
def Roll.render (r : Roll) : List Char :=
  natToChars r.num_dice ++ 'd' :: natToChars r.num_faces ++
    (if r.extra = 0 then []
     else (if r.extra < 0 then '-' else '+') :: natToChars r.extra.natAbs)

/-- The characters of a string. -/
def chars (s : String) : List Char := s.data

/-- The language accepted by parse: a run of one to four digits, the
letter d, a second such run, and optionally a sign followed by a third
such run. -/
def rollGrammar (s : List Char) : Prop :=
  ∃ A B : List Char,
    A ≠ [] ∧ A.length ≤ 4 ∧ (∀ c ∈ A, isDigitC c = true) ∧
    B ≠ [] ∧ B.length ≤ 4 ∧ (∀ c ∈ B, isDigitC c = true) ∧
    (s = A ++ 'd' :: B ∨
      ∃ sgn : Char, ∃ C : List Char, (sgn = '+' ∨ sgn = '-') ∧
        C ≠ [] ∧ C.length ≤ 4 ∧ (∀ c ∈ C, isDigitC c = true) ∧
        s = A ++ 'd' :: (B ++ sgn :: C))

/-- C1: the code rejects every dice or face field of five digits with the
field-specific too-large error, even 65535 which fits in u16; only fields
of at most four digits (value at most 9999) parse. -/
theorem claim1_five_digit_rejected :
    parse (chars "65535d6") = some (.error .TooManyDice) ∧
    parse (chars "1d65535") = some (.error .TooManySides) ∧
    parse (chars "65536d6") = some (.error .TooManyDice) ∧
    parse (chars "123456d2") = some (.error .TooManyDice) ∧
    parse (chars "9999d9999") = some (.ok ⟨9999, 9999, 0⟩) :=
  ⟨rfl, rfl, rfl, rfl, rfl⟩

/-- C2: the render-parse round trip already fails inside the claimed
range: Roll 65535 6 0 renders to 65535d6, which parse rejects with
TooManyDice instead of returning the Roll. -/
theorem claim2_roundtrip_fails_at_65535 :
    (Roll.mk 65535 6 0).render = chars "65535d6" ∧
    parse ((Roll.mk 65535 6 0).render) = some (.error .TooManyDice) ∧
    (Roll.mk 1 6 (-32768)).render = chars "1d6-32768" ∧
    parse ((Roll.mk 1 6 (-32768)).render) = some (.error .ExtraTooLarge) ∧
    parse ((Roll.mk 9999 9999 (-9999)).render) = some (.ok ⟨9999, 9999, -9999⟩) :=
  ⟨rfl, rfl, rfl, rfl, rfl⟩

/-- C3: an input denoting zero dice or zero-sided dice does parse: 0d6
yields Roll 0 6 0 and 1d0 yields Roll 1 0 0, violating the documented
num_dice >= 1, num_faces >= 1 invariant. -/
theorem claim3_zero_dice_parses :
    parse (chars "0d6") = some (.ok ⟨0, 6, 0⟩) ∧
    parse (chars "1d0") = some (.ok ⟨1, 0, 0⟩) :=
  ⟨rfl, rfl⟩

/-- C4 counterexample: 01d6 is not rejected with the invalid-format
error; it parses successfully. -/
theorem claim4_leading_zero_cex :
    parse (chars "01d6") ≠ some (.error .InvalidFormat) ∧
    parse (chars "01d6") = some (.ok ⟨1, 6, 0⟩) := by
  constructor
  · intro h
    have h1 : parse (chars "01d6") = some (.ok ⟨1, 6, 0⟩) := rfl
    rw [h1] at h
    simp at h
  · rfl

/-- C4 amended: an input with a leading zero in a numeric field, such as
01d6, is accepted by parse and yields the same Roll as 1d6 (leading
zeros only count toward the five-digit ceiling). -/
theorem claim4_leading_zero_amended :
    parse (chars "01d6") = some (.ok ⟨1, 6, 0⟩) ∧
    parse (chars "1d6") = some (.ok ⟨1, 6, 0⟩) :=
  ⟨rfl, rfl⟩

theorem isDigitC_d : isDigitC 'd' = false := by decide

theorem isDigitC_sign {c : Char} (h : c = '+' ∨ c = '-') : isDigitC c = false := by
  rcases h with rfl | rfl <;> decide

theorem natMin_le_left (a b : Nat) : min a b ≤ a := by
  rw [Nat.min_def]; split <;> omega

theorem natMin_le_right (a b : Nat) : min a b ≤ b := by
  rw [Nat.min_def]; split <;> omega

theorem natMin_zero_left (b : Nat) : min 0 b = 0 := by
  rw [Nat.min_def]; split <;> omega

theorem natMin_succ_succ (a b : Nat) : min (a + 1) (b + 1) = min a b + 1 := by
  rw [Nat.min_def, Nat.min_def]
  split <;> split <;> omega

theorem natMin_zero_right (a : Nat) : min a 0 = 0 := by
  rw [Nat.min_def]; split <;> omega

theorem natMin_eq_right {a b : Nat} (h : b ≤ a) : min a b = b := by
  rw [Nat.min_def]; split <;> omega

theorem read_digitsAux_eq (s : List Char) :
    ∀ i : Nat, read_digitsAux s i = i + min (5 - i) (s.takeWhile isDigitC).length := by
  induction s with
  | nil => intro i; simp [read_digitsAux]
  | cons c cs ih =>
    intro i
    rw [read_digitsAux, List.takeWhile_cons]
    simp only [MAX_DIGITS]
    by_cases h5 : 5 ≤ i
    · rw [if_pos h5]
      have h0 : 5 - i = 0 := by omega
      rw [h0, natMin_zero_left]
      omega
    · rw [if_neg h5]
      cases hc : isDigitC c
      · simp only [if_neg Bool.false_ne_true, List.length_nil, natMin_zero_right]
        omega
      · simp only [if_pos (Eq.refl true), if_true, List.length_cons]
        rw [ih (i + 1)]
        have h1 : 5 - i = (5 - (i + 1)) + 1 := by omega
        rw [h1, natMin_succ_succ]
        omega

theorem read_digits_eq (s : List Char) :
    read_digits s = min 5 (s.takeWhile isDigitC).length := by
  have h := read_digitsAux_eq s 0
  simpa [read_digits] using h

theorem tw_length_le (s : List Char) : (s.takeWhile isDigitC).length ≤ s.length := by
  induction s with
  | nil => simp
  | cons c cs ih =>
    rw [List.takeWhile_cons]
    split
    · simp only [List.length_cons]; omega
    · simp

theorem read_digits_le_five (s : List Char) : read_digits s ≤ 5 := by
  rw [read_digits_eq]; exact natMin_le_left 5 _

theorem read_digits_le_length (s : List Char) : read_digits s ≤ s.length := by
  rw [read_digits_eq]
  exact le_trans (natMin_le_right 5 _) (tw_length_le s)

theorem read_digits_zero (s : List Char) (h : s.takeWhile isDigitC = []) :
    read_digits s = 0 := by
  rw [read_digits_eq, h]; rfl

theorem take_tw (s : List Char) :
    ∀ n, n ≤ (s.takeWhile isDigitC).length → s.take n = (s.takeWhile isDigitC).take n := by
  induction s with
  | nil => intro n h; simp
  | cons c cs ih =>
    intro n h
    rw [List.takeWhile_cons] at h ⊢
    cases hc : isDigitC c
    · rw [hc] at h
      simp only [if_neg Bool.false_ne_true] at h
      simp at h
      subst h
      simp
    · rw [hc] at h
      simp only [if_pos (Eq.refl true), if_true] at h ⊢
      simp only [List.length_cons] at h
      match n with
      | 0 => simp
      | n + 1 =>
        simp only [List.take_succ_cons]
        rw [ih n (by omega)]

theorem mem_tw {s : List Char} {c : Char} (h : c ∈ s.takeWhile isDigitC) :
    isDigitC c = true := by
  induction s with
  | nil => simp at h
  | cons a s ih =>
    rw [List.takeWhile_cons] at h
    cases ha : isDigitC a
    · rw [ha] at h
      simp only [if_neg Bool.false_ne_true] at h
      simp at h
    · rw [ha] at h
      simp only [if_pos (Eq.refl true), if_true, List.mem_cons] at h
      rcases h with rfl | h
      · exact ha
      · exact ih h

theorem take_digits (s : List Char) : ∀ c ∈ s.take (read_digits s), isDigitC c = true := by
  intro c hc
  have hle : read_digits s ≤ (s.takeWhile isDigitC).length := by
    rw [read_digits_eq]; exact natMin_le_right 5 _
  rw [take_tw s _ hle] at hc
  exact mem_tw (List.take_subset _ _ hc)

theorem tw_digit_run_append (A t : List Char) (hA : ∀ c ∈ A, isDigitC c = true) :
    (A ++ t).takeWhile isDigitC = A ++ t.takeWhile isDigitC := by
  induction A with
  | nil => simp
  | cons a A ih =>
    have ha : isDigitC a = true := hA a (by simp)
    rw [List.cons_append, List.takeWhile_cons, if_pos ha,
      ih (fun c hc => hA c (by simp [hc]))]
    rfl

theorem read_digits_run (A t : List Char) (hA : ∀ c ∈ A, isDigitC c = true)
    (hlen : A.length ≤ 4) (ht : t.takeWhile isDigitC = []) :
    read_digits (A ++ t) = A.length := by
  rw [read_digits_eq, tw_digit_run_append A t hA, ht, List.append_nil]
  exact natMin_eq_right (by omega)

theorem strTake_some (s : List Char) (i : Nat) (h : i ≤ s.length) :
    strTake s i = some (s.take i) := by
  simp [strTake, h]

theorem strDrop_some (s : List Char) (i : Nat) (h : i ≤ s.length) :
    strDrop s i = some (s.drop i) := by
  simp [strDrop, h]

theorem digitsValAux_lt (cs : List Char) (h : ∀ c ∈ cs, isDigitC c = true) :
    ∀ acc : Nat, digitsValAux cs acc < (acc + 1) * 10 ^ cs.length := by
  induction cs with
  | nil => intro acc; simp [digitsValAux]
  | cons c cs ih =>
    intro acc
    have hc : isDigitC c = true := h c (by simp)
    have hc' : 48 ≤ c.toNat ∧ c.toNat ≤ 57 := by simpa [isDigitC] using hc
    rw [digitsValAux]
    have hrec := ih (fun x hx => h x (by simp [hx])) (10 * acc + (c.toNat - 48))
    have hstep : (10 * acc + (c.toNat - 48) + 1) * 10 ^ cs.length ≤
        (acc + 1) * 10 ^ (cs.length + 1) := by
      have h1 : 10 * acc + (c.toNat - 48) + 1 ≤ 10 * (acc + 1) := by omega
      calc (10 * acc + (c.toNat - 48) + 1) * 10 ^ cs.length
          ≤ 10 * (acc + 1) * 10 ^ cs.length := Nat.mul_le_mul_right _ h1
        _ = (acc + 1) * 10 ^ (cs.length + 1) := by ring
    simp only [List.length_cons]
    exact Nat.lt_of_lt_of_le hrec hstep

theorem digitsVal_le_9999 (cs : List Char) (h : ∀ c ∈ cs, isDigitC c = true)
    (hlen : cs.length ≤ 4) : digitsVal cs ≤ 9999 := by
  have h1 := digitsValAux_lt cs h 0
  have h2 : 10 ^ cs.length ≤ 10 ^ 4 := Nat.pow_le_pow_right (by norm_num) hlen
  have h3 : digitsValAux cs 0 < 10000 := by
    calc digitsValAux cs 0 < (0 + 1) * 10 ^ cs.length := h1
      _ ≤ 10 ^ 4 := by simpa using h2
      _ = 10000 := by norm_num
  have h4 : digitsVal cs < 10000 := h3
  omega

theorem u16_run (cs : List Char) (h1 : cs ≠ []) (h2 : ∀ c ∈ cs, isDigitC c = true)
    (h3 : digitsVal cs ≤ 65535) : u16_from_str cs = some (digitsVal cs) := by
  rw [u16_from_str, if_pos ⟨h1, List.all_eq_true.mpr h2, h3⟩]

theorem parse_run_d (A t : List Char) (h1 : A ≠ []) (h2 : A.length ≤ 4)
    (h3 : ∀ c ∈ A, isDigitC c = true) :
    parse (A ++ 'd' :: t) = parseSidesStage (digitsVal A) t := by
  have htw : ('d' :: t).takeWhile isDigitC = [] := by
    rw [List.takeWhile_cons, if_neg]
    simp [isDigitC_d]
  have hrd : read_digits (A ++ 'd' :: t) = A.length := read_digits_run A _ h3 h2 htw
  have hA0 : A.length ≠ 0 := fun h => h1 (List.length_eq_zero.mp h)
  have hlen : A.length ≤ (A ++ 'd' :: t).length := by simp
  have hv : digitsVal A ≤ 65535 := by have := digitsVal_le_9999 A h3 h2; omega
  simp only [parse, hrd, MAX_DIGITS, if_neg hA0,
    if_neg (show ¬ (5 ≤ A.length) by omega), strTake_some _ _ hlen,
    strDrop_some _ _ hlen, List.take_left, List.drop_left, u16_run A h1 h3 hv]

theorem sides_run (nd : Nat) (B t : List Char) (h1 : B ≠ []) (h2 : B.length ≤ 4)
    (h3 : ∀ c ∈ B, isDigitC c = true) (ht : t.takeWhile isDigitC = []) :
    parseSidesStage nd (B ++ t) = parseExtraStage nd (digitsVal B) t := by
  have hrd : read_digits (B ++ t) = B.length := read_digits_run B t h3 h2 ht
  have hB0 : B.length ≠ 0 := fun h => h1 (List.length_eq_zero.mp h)
  have hlen : B.length ≤ (B ++ t).length := by simp
  have hv : digitsVal B ≤ 65535 := by have := digitsVal_le_9999 B h3 h2; omega
  simp only [parseSidesStage, hrd, MAX_DIGITS, if_neg hB0,
    if_neg (show ¬ (5 ≤ B.length) by omega), strTake_some _ _ hlen,
    strDrop_some _ _ hlen, List.take_left, List.drop_left, u16_run B h1 h3 hv]

theorem strTake_eq_some {s : List Char} {i : Nat} {t : List Char}
    (h : strTake s i = some t) : i ≤ s.length ∧ s.take i = t := by
  rw [strTake] at h
  by_cases hb : i ≤ s.length
  · rw [if_pos hb] at h
    exact ⟨hb, Option.some.inj h⟩
  · rw [if_neg hb] at h
    exact Option.noConfusion h

theorem strDrop_eq_some {s : List Char} {i : Nat} {t : List Char}
    (h : strDrop s i = some t) : i ≤ s.length ∧ s.drop i = t := by
  rw [strDrop] at h
  by_cases hb : i ≤ s.length
  · rw [if_pos hb] at h
    exact ⟨hb, Option.some.inj h⟩
  · rw [if_neg hb] at h
    exact Option.noConfusion h

theorem u16_eq_some {cs : List Char} {n : Nat} (h : u16_from_str cs = some n) :
    cs ≠ [] ∧ (∀ c ∈ cs, isDigitC c = true) ∧ digitsVal cs = n := by
  rw [u16_from_str] at h
  by_cases hc : cs ≠ [] ∧ cs.all isDigitC = true ∧ digitsVal cs ≤ 65535
  · rw [if_pos hc] at h
    exact ⟨hc.1, List.all_eq_true.mp hc.2.1, Option.some.inj h⟩
  · rw [if_neg hc] at h
    exact Option.noConfusion h

theorem i16_plus_eq_some {ds : List Char} {v : Int}
    (h : i16_from_str ('+' :: ds) = some v) :
    ds ≠ [] ∧ (∀ c ∈ ds, isDigitC c = true) ∧ ((digitsVal ds : Int)) = v := by
  simp only [i16_from_str] at h
  by_cases hc : ds ≠ [] ∧ ds.all isDigitC = true ∧ digitsVal ds ≤ 32767
  · rw [if_pos hc] at h
    exact ⟨hc.1, List.all_eq_true.mp hc.2.1, Option.some.inj h⟩
  · rw [if_neg hc] at h
    exact Option.noConfusion h

theorem i16_minus_eq_some {ds : List Char} {v : Int}
    (h : i16_from_str ('-' :: ds) = some v) :
    ds ≠ [] ∧ (∀ c ∈ ds, isDigitC c = true) ∧ (-(digitsVal ds : Int)) = v := by
  simp only [i16_from_str] at h
  by_cases hc : ds ≠ [] ∧ ds.all isDigitC = true ∧ digitsVal ds ≤ 32768
  · rw [if_pos hc] at h
    exact ⟨hc.1, List.all_eq_true.mp hc.2.1, Option.some.inj h⟩
  · rw [if_neg hc] at h
    exact Option.noConfusion h

theorem extraStage_ok (nd nf : Nat) (s3 : List Char) (r : Roll)
    (h : parseExtraStage nd nf s3 = some (.ok r)) :
    (s3 = [] ∧ r = ⟨nd, nf, 0⟩) ∨
    ∃ sgn : Char, ∃ C : List Char, (sgn = '+' ∨ sgn = '-') ∧ C ≠ [] ∧ C.length ≤ 4 ∧
      (∀ c ∈ C, isDigitC c = true) ∧ s3 = sgn :: C ∧
      (r = ⟨nd, nf, (digitsVal C : Int)⟩ ∨ r = ⟨nd, nf, -(digitsVal C : Int)⟩) := by
  match s3 with
  | [] =>
    left
    refine ⟨rfl, ?_⟩
    simp only [parseExtraStage, Option.some.injEq, Except.ok.injEq] at h
    exact h.symm
  | c :: s4 =>
    right
    simp only [parseExtraStage, MAX_DIGITS] at h
    split at h
    case isFalse => simp at h
    case isTrue hsgn =>
      split at h
      · simp at h
      split at h
      · simp at h
      split at h
      next heq => simp at h
      next es heq =>
        obtain ⟨hble, hes⟩ := strTake_eq_some heq
        rw [List.take_succ_cons] at hes
        subst hes
        split at h
        next heq2 => simp at h
        next ex heq2 =>
          split at h
          next heq3 => simp at h
          next s5 heq3 =>
            obtain ⟨hble2, hs5⟩ := strDrop_eq_some heq3
            rw [List.drop_succ_cons] at hs5
            split at h
            case isFalse => simp at h
            case isTrue h5 =>
              simp only [Option.some.injEq, Except.ok.injEq] at h
              have hdk : s4.drop (read_digits s4) = [] := hs5.trans h5
              have hs4 : s4.take (read_digits s4) = s4 := by
                have htad := List.take_append_drop (read_digits s4) s4
                rw [hdk, List.append_nil] at htad
                exact htad
              have hlen : (s4.take (read_digits s4)).length ≤ 4 := by
                rw [List.length_take]
                have h1 := natMin_le_left (read_digits s4) s4.length
                omega
              rcases hsgn with rfl | rfl
              · obtain ⟨hC1, hC2, hex⟩ := i16_plus_eq_some heq2
                refine ⟨'+', s4.take (read_digits s4), Or.inl rfl, hC1, hlen,
                  hC2, by rw [hs4], Or.inl ?_⟩
                rw [← h, hex]
              · obtain ⟨hC1, hC2, hex⟩ := i16_minus_eq_some heq2
                refine ⟨'-', s4.take (read_digits s4), Or.inr rfl, hC1, hlen,
                  hC2, by rw [hs4], Or.inr ?_⟩
                rw [← h, hex]

theorem sidesStage_ok (nd : Nat) (s2 : List Char) (r : Roll)
    (h : parseSidesStage nd s2 = some (.ok r)) :
    ∃ B s3 : List Char, B ≠ [] ∧ B.length ≤ 4 ∧ (∀ c ∈ B, isDigitC c = true) ∧
      s2 = B ++ s3 ∧ parseExtraStage nd (digitsVal B) s3 = some (.ok r) := by
  simp only [parseSidesStage, MAX_DIGITS] at h
  split at h
  · simp at h
  split at h
  · simp at h
  split at h
  next heq => simp at h
  next fs heq =>
    obtain ⟨hble, hfs⟩ := strTake_eq_some heq
    subst hfs
    split at h
    next heq2 => simp at h
    next nf heq2 =>
      obtain ⟨hB1, hB2, hnf⟩ := u16_eq_some heq2
      split at h
      next heq3 => simp at h
      next s3 heq3 =>
        obtain ⟨hble2, hs3⟩ := strDrop_eq_some heq3
        refine ⟨s2.take (read_digits s2), s3, hB1, ?_, hB2, ?_, ?_⟩
        · rw [List.length_take]
          have h1 := natMin_le_left (read_digits s2) s2.length
          omega
        · rw [← hs3, List.take_append_drop]
        · rw [hnf]
          exact h

theorem parse_ok_run (s : List Char) (r : Roll) (h : parse s = some (.ok r)) :
    ∃ A s2 : List Char, A ≠ [] ∧ A.length ≤ 4 ∧ (∀ c ∈ A, isDigitC c = true) ∧
      s = A ++ 'd' :: s2 ∧ parseSidesStage (digitsVal A) s2 = some (.ok r) := by
  simp only [parse, MAX_DIGITS] at h
  split at h
  · simp at h
  split at h
  · simp at h
  split at h
  next heq => simp at h
  next ds heq =>
    obtain ⟨hble, hds⟩ := strTake_eq_some heq
    subst hds
    split at h
    next heq2 => simp at h
    next nd heq2 =>
      obtain ⟨hA1, hA2, hnd⟩ := u16_eq_some heq2
      split at h
      next heq3 => simp at h
      next s1 heq3 =>
        obtain ⟨hble2, hs1⟩ := strDrop_eq_some heq3
        split at h
        next s2 =>
          refine ⟨s.take (read_digits s), s2, hA1, ?_, hA2, ?_, ?_⟩
          · rw [List.length_take]
            have h1 := natMin_le_left (read_digits s) s.length
            omega
          · rw [← hs1, List.take_append_drop]
          · rw [hnd]
            exact h
        next => simp at h

/-- C7: the parser classifies missing-token failures by the first
malformed position: no leading digits gives the missing-dice error, a d
followed by no digit gives the missing-sides error, and a sign followed
by no digit gives the missing-extra error. -/
theorem claim7_missing_token_errors :
    (∀ s : List Char, s.takeWhile isDigitC = [] →
      parse s = some (.error .MissingNumberOfDice)) ∧
    (∀ A t : List Char, A ≠ [] → A.length ≤ 4 → (∀ c ∈ A, isDigitC c = true) →
      t.takeWhile isDigitC = [] →
      parse (A ++ 'd' :: t) = some (.error .MissingNumberOfSides)) ∧
    (∀ A B t : List Char, ∀ sgn : Char,
      A ≠ [] → A.length ≤ 4 → (∀ c ∈ A, isDigitC c = true) →
      B ≠ [] → B.length ≤ 4 → (∀ c ∈ B, isDigitC c = true) →
      (sgn = '+' ∨ sgn = '-') → t.takeWhile isDigitC = [] →
      parse (A ++ 'd' :: (B ++ sgn :: t)) = some (.error .MissingExtra)) := by
  refine ⟨?_, ?_, ?_⟩
  · intro s hs
    have h0 : read_digits s = 0 := read_digits_zero s hs
    simp [parse, h0]
  · intro A t h1 h2 h3 ht
    rw [parse_run_d A t h1 h2 h3]
    have h0 : read_digits t = 0 := read_digits_zero t ht
    simp [parseSidesStage, h0]
  · intro A B t sgn h1 h2 h3 h4 h5 h6 hsgn ht
    rw [parse_run_d A _ h1 h2 h3]
    have htw : (sgn :: t).takeWhile isDigitC = [] := by
      rw [List.takeWhile_cons, if_neg]
      simp [isDigitC_sign hsgn]
    rw [sides_run _ B _ h4 h5 h6 htw]
    have h0 : read_digits t = 0 := read_digits_zero t ht
    rcases hsgn with rfl | rfl <;> simp [parseExtraStage, h0]

/-- C7 witness: the classification at the inputs for empty input, 1d and
1d6+. -/
theorem claim7_missing_token_errors_witness :
    parse (chars "") = some (.error .MissingNumberOfDice) ∧
    parse (chars "1d") = some (.error .MissingNumberOfSides) ∧
    parse (chars "1d6+") = some (.error .MissingExtra) :=
  ⟨claim7_missing_token_errors.1 (chars "") rfl,
    claim7_missing_token_errors.2.1 ['1'] [] (by decide) (by decide) (by decide) rfl,
    claim7_missing_token_errors.2.2 ['1'] ['6'] [] '+' (by decide) (by decide)
      (by decide) (by decide) (by decide) (by decide) (Or.inl rfl) rfl⟩

theorem extraStage_isSome (nd nf : Nat) (s3 : List Char) :
    (parseExtraStage nd nf s3).isSome = true := by
  match s3 with
  | [] => rfl
  | c :: s4 =>
    simp only [parseExtraStage]
    split
    case isFalse => rfl
    case isTrue hsgn =>
      split
      · rfl
      split
      · rfl
      have hk : read_digits s4 ≤ s4.length := read_digits_le_length s4
      have hb : read_digits s4 + 1 ≤ (c :: s4).length := by
        simp only [List.length_cons]; omega
      simp only [strTake_some _ _ hb, strDrop_some _ _ hb]
      split
      · rfl
      · split <;> rfl

theorem sidesStage_isSome (nd : Nat) (s2 : List Char) :
    (parseSidesStage nd s2).isSome = true := by
  simp only [parseSidesStage]
  split
  · rfl
  split
  · rfl
  have hj : read_digits s2 ≤ s2.length := read_digits_le_length s2
  simp only [strTake_some _ _ hj, strDrop_some _ _ hj]
  split
  · rfl
  · exact extraStage_isSome _ _ _

theorem parse_isSome (s : List Char) : (parse s).isSome = true := by
  simp only [parse]
  split
  · rfl
  split
  · rfl
  have hi : read_digits s ≤ s.length := read_digits_le_length s
  simp only [strTake_some _ _ hi, strDrop_some _ _ hi]
  split
  · rfl
  · split
    · exact sidesStage_isSome _ _
    · rfl

/-- C8: parse is anchored: it succeeds only on a whole word of the
grammar digits-d-digits with an optional signed digit run (each run of
one to four digits, as the code accepts); trailing characters after a
valid roll give the invalid-format error and leading garbage gives the
missing-dice error, never a partial-match success. -/
theorem claim8_parse_anchored :
    (∀ (s : List Char) (r : Roll), parse s = some (.ok r) → rollGrammar s) ∧
    (∀ (c : Char) (t : List Char), isDigitC c = false →
      parse (c :: t) = some (.error .MissingNumberOfDice)) ∧
    parse (chars "3d4*4") = some (.error .InvalidFormat) := by
  refine ⟨?_, ?_, rfl⟩
  · intro s r h
    obtain ⟨A, s2, hA1, hA2, hA3, hs, h2⟩ := parse_ok_run s r h
    obtain ⟨B, s3, hB1, hB2, hB3, hs2, h3⟩ := sidesStage_ok _ s2 r h2
    rcases extraStage_ok _ _ s3 r h3 with ⟨h30, _⟩ |
      ⟨sgn, C, hsgn, hC1, hC2, hC3, hs3, _⟩
    · refine ⟨A, B, hA1, hA2, hA3, hB1, hB2, hB3, Or.inl ?_⟩
      rw [hs, hs2, h30, List.append_nil]
    · refine ⟨A, B, hA1, hA2, hA3, hB1, hB2, hB3,
        Or.inr ⟨sgn, C, hsgn, hC1, hC2, hC3, ?_⟩⟩
      rw [hs, hs2, hs3]
  · intro c t hc
    have h0 : read_digits (c :: t) = 0 := by
      apply read_digits_zero
      rw [List.takeWhile_cons, if_neg]
      simp [hc]
    simp [parse, h0]

/-- C8 witness: 2d6 parses and is a grammar word; a leading star is
rejected. -/
theorem claim8_parse_anchored_witness :
    rollGrammar (chars "2d6") ∧
    parse ('*' :: chars "1d6") = some (.error .MissingNumberOfDice) :=
  ⟨claim8_parse_anchored.1 (chars "2d6") ⟨2, 6, 0⟩ rfl,
    claim8_parse_anchored.2.1 '*' (chars "1d6") (by decide)⟩

/-- C9: parse is total in the model: it never reaches the panic value
none, because every slice index is in bounds: read_digits counts only
leading ASCII digit characters and returns at most min(MAX_DIGITS,
length). -/
theorem claim9_parse_total :
    ∀ s : List Char, (parse s).isSome = true ∧ read_digits s ≤ MAX_DIGITS ∧
      read_digits s ≤ s.length ∧ ∀ c ∈ s.take (read_digits s), isDigitC c = true :=
  fun s => ⟨parse_isSome s, read_digits_le_five s, read_digits_le_length s,
    take_digits s⟩

/-- C9 witness: the totality facts at concrete inputs. -/
theorem claim9_parse_total_witness :
    (parse (chars "2d6")).isSome = true ∧
    read_digits (chars "12d6") ≤ MAX_DIGITS ∧
    read_digits (chars "12d6") ≤ (chars "12d6").length ∧
    isDigitC '1' = true :=
  ⟨(claim9_parse_total (chars "2d6")).1, (claim9_parse_total (chars "12d6")).2.1,
    (claim9_parse_total (chars "12d6")).2.2.1,
    (claim9_parse_total (chars "12d6")).2.2.2 '1' (by decide)⟩

/-- C10: every Roll built by a successful parse has fields read from at
most four digits, so num_dice and num_faces are at most 9999 and extra is
between -9999 and 9999; the u16 and i16 conversions can therefore never
overflow and their too-large fallbacks are unreachable. -/
theorem claim10_field_bounds :
    ∀ (s : List Char) (r : Roll), parse s = some (.ok r) →
      r.num_dice ≤ 9999 ∧ r.num_faces ≤ 9999 ∧ -9999 ≤ r.extra ∧ r.extra ≤ 9999 := by
  intro s r h
  obtain ⟨A, s2, hA1, hA2, hA3, hs, h2⟩ := parse_ok_run s r h
  obtain ⟨B, s3, hB1, hB2, hB3, hs2, h3⟩ := sidesStage_ok _ s2 r h2
  have hAv : digitsVal A ≤ 9999 := digitsVal_le_9999 A hA3 hA2
  have hBv : digitsVal B ≤ 9999 := digitsVal_le_9999 B hB3 hB2
  rcases extraStage_ok _ _ s3 r h3 with ⟨_, rfl⟩ |
    ⟨sgn, C, _, _, hC2, hC3, _, hr⟩
  · refine ⟨hAv, hBv, ?_, ?_⟩
    · show (-9999 : Int) ≤ 0
      decide
    · show (0 : Int) ≤ 9999
      decide
  · have hCv : digitsVal C ≤ 9999 := digitsVal_le_9999 C hC3 hC2
    rcases hr with rfl | rfl
    · refine ⟨hAv, hBv, ?_, ?_⟩
      · show (-9999 : Int) ≤ (digitsVal C : Int)
        omega
      · show ((digitsVal C : Int)) ≤ 9999
        omega
    · refine ⟨hAv, hBv, ?_, ?_⟩
      · show (-9999 : Int) ≤ -(digitsVal C : Int)
        omega
      · show (-(digitsVal C : Int)) ≤ 9999
        omega

/-- C10 witness: the bounds at the parse of 2d6+3. -/
theorem claim10_field_bounds_witness :
    parse (chars "2d6+3") = some (.ok ⟨2, 6, 3⟩) ∧
    ((⟨2, 6, 3⟩ : Roll).num_dice ≤ 9999 ∧ (⟨2, 6, 3⟩ : Roll).num_faces ≤ 9999 ∧
      -9999 ≤ (⟨2, 6, 3⟩ : Roll).extra ∧ (⟨2, 6, 3⟩ : Roll).extra ≤ 9999) :=
  ⟨rfl, claim10_field_bounds (chars "2d6+3") ⟨2, 6, 3⟩ rfl⟩

theorem nlog2_spec : ∀ fuel n, 1 ≤ n → n ≤ fuel →
    2 ^ nlog2 fuel n ≤ n ∧ n < 2 ^ (nlog2 fuel n + 1) := by
  intro fuel
  induction fuel with
  | zero => intro n h1 h2; omega
  | succ fuel ih =>
    intro n h1 h2
    rw [nlog2]
    by_cases hn : n ≤ 1
    · rw [if_pos hn]
      norm_num
      omega
    · rw [if_neg hn]
      have h1' : 1 ≤ n / 2 := by omega
      have h2' : n / 2 ≤ fuel := by omega
      obtain ⟨ihl, ihr⟩ := ih (n / 2) h1' h2'
      constructor
      · rw [pow_succ]
        omega
      · rw [pow_succ]
        omega

theorem natLog2_spec (n : Nat) (h : 1 ≤ n) :
    2 ^ natLog2 n ≤ n ∧ n < 2 ^ (natLog2 n + 1) := nlog2_spec n n h le_rfl

theorem two_zpow_coe (t : ℕ) : (2 : ℚ) ^ ((t : ℕ) : ℤ) = ((2 ^ t : ℕ) : ℚ) := by
  rw [zpow_natCast]
  norm_cast

theorem qfloorLog2_spec (x : ℚ) (hx : x ≠ 0) :
    (2 : ℚ) ^ qfloorLog2 x ≤ |x| ∧ |x| < 2 ^ (qfloorLog2 x + 1) := by
  have hnum : x.num ≠ 0 := Rat.num_ne_zero.mpr hx
  have hn1 : 1 ≤ x.num.natAbs := by omega
  have hd1 : 1 ≤ x.den := x.pos
  obtain ⟨ha1, ha2⟩ := natLog2_spec x.num.natAbs hn1
  obtain ⟨hb1, hb2⟩ := natLog2_spec x.den hd1
  set n := x.num.natAbs with hndef
  set d := x.den with hddef
  set a := natLog2 n with hadef
  set b := natLog2 d with hbdef
  have hdq : (0 : ℚ) < (d : ℚ) := by exact_mod_cast Nat.lt_of_lt_of_le Nat.zero_lt_one hd1
  have hnq : (0 : ℚ) < (n : ℚ) := by exact_mod_cast Nat.lt_of_lt_of_le Nat.zero_lt_one hn1
  have habs : |x| = (n : ℚ) / (d : ℚ) := by
    rw [← Rat.num_div_den x, abs_div]
    congr 1
    · rw [← Int.cast_abs, Int.abs_eq_natAbs]
      norm_cast
    · rw [abs_of_pos]
      exact_mod_cast hdq
  -- upper bound: |x| < 2 ^ (a - b + 1)
  have hub : |x| < (2 : ℚ) ^ ((a : ℤ) - (b : ℤ) + 1) := by
    have hsplit : (2 : ℚ) ^ ((a : ℤ) - (b : ℤ) + 1) =
        ((2 ^ (a + 1) : ℕ) : ℚ) / ((2 ^ b : ℕ) : ℚ) := by
      rw [← two_zpow_coe (a + 1), ← two_zpow_coe b, ← zpow_sub₀ (two_ne_zero)]
      congr 1
      push_cast
      ring
    rw [habs, hsplit, div_lt_div_iff hdq (by positivity)]
    have key : n * 2 ^ b < 2 ^ (a + 1) * d := by
      calc n * 2 ^ b < 2 ^ (a + 1) * 2 ^ b :=
            Nat.mul_lt_mul_of_lt_of_le ha2 le_rfl (by positivity)
        _ ≤ 2 ^ (a + 1) * d := Nat.mul_le_mul_left _ hb1
    exact_mod_cast key
  -- lower bound: 2 ^ (a - b - 1) ≤ |x|
  have hlb : (2 : ℚ) ^ ((a : ℤ) - (b : ℤ) - 1) ≤ |x| := by
    have hsplit : (2 : ℚ) ^ ((a : ℤ) - (b : ℤ) - 1) =
        ((2 ^ a : ℕ) : ℚ) / ((2 ^ (b + 1) : ℕ) : ℚ) := by
      rw [← two_zpow_coe a, ← two_zpow_coe (b + 1), ← zpow_sub₀ (two_ne_zero)]
      congr 1
      push_cast
      ring
    rw [habs, hsplit, div_le_div_iff (by positivity) hdq]
    have key : 2 ^ a * d ≤ n * 2 ^ (b + 1) := by
      calc 2 ^ a * d ≤ 2 ^ a * 2 ^ (b + 1) := Nat.mul_le_mul_left _ (Nat.le_of_lt hb2)
        _ ≤ n * 2 ^ (b + 1) := Nat.mul_le_mul_right _ ha1
    exact_mod_cast key
  rw [qfloorLog2]
  simp only [← hndef, ← hddef, ← hadef, ← hbdef]
  split
  case isTrue h => exact ⟨h, hub⟩
  case isFalse h =>
    constructor
    · exact hlb
    · rw [sub_add_cancel]
      exact lt_of_not_le h

theorem rhe_intCast (n : ℤ) : rhe (n : ℚ) = n := by
  simp [rhe, Int.floor_intCast]

theorem floor_le_rhe (q : ℚ) : ⌊q⌋ ≤ rhe q := by
  rw [rhe]; split_ifs <;> omega

theorem rhe_le_floor_add_one (q : ℚ) : rhe q ≤ ⌊q⌋ + 1 := by
  rw [rhe]; split_ifs <;> omega

theorem rhe_mono {x y : ℚ} (h : x ≤ y) : rhe x ≤ rhe y := by
  rcases (Int.floor_le_floor h).lt_or_eq with hf | hf
  · calc rhe x ≤ ⌊x⌋ + 1 := rhe_le_floor_add_one x
      _ ≤ ⌊y⌋ := hf
      _ ≤ rhe y := floor_le_rhe y
  · rw [rhe, rhe, hf]
    split_ifs <;> first | omega | (exfalso; linarith)

theorem rhe_le_int {q : ℚ} {n : ℤ} (h : q ≤ (n : ℚ)) : rhe q ≤ n := by
  have h2 := rhe_mono h
  rw [rhe_intCast] at h2
  exact h2

theorem int_le_rhe {n : ℤ} {q : ℚ} (h : (n : ℚ) ≤ q) : n ≤ rhe q := by
  have h2 := rhe_mono h
  rw [rhe_intCast] at h2
  exact h2

theorem rn_zero : rn 0 = 0 := by simp [rn]

theorem rn_eq_rhe (x : ℚ) (hx : x ≠ 0) :
    rn x = (rhe (x / 2 ^ (qfloorLog2 x - 23)) : ℚ) * 2 ^ (qfloorLog2 x - 23) := by
  rw [rn, if_neg hx]

theorem rn_exact {m k : ℤ} (hm : m.natAbs < 2 ^ 24) :
    rn ((m : ℚ) * 2 ^ k) = (m : ℚ) * 2 ^ k := by
  by_cases hm0 : m = 0
  · subst hm0
    simp [rn]
  · have hx : (m : ℚ) * 2 ^ k ≠ 0 :=
      mul_ne_zero (Int.cast_ne_zero.mpr hm0) (zpow_ne_zero _ two_ne_zero)
    obtain ⟨hl1, hl2⟩ := qfloorLog2_spec ((m : ℚ) * 2 ^ k) hx
    set l := qfloorLog2 ((m : ℚ) * 2 ^ k) with hldef
    have habs : |(m : ℚ) * 2 ^ k| = (m.natAbs : ℚ) * 2 ^ k := by
      rw [abs_mul, abs_of_pos (zpow_pos (by norm_num : (0 : ℚ) < 2) k),
        ← Int.cast_abs, Int.cast_natAbs]
    have hek : l - 23 ≤ k := by
      by_contra hc
      push_neg at hc
      have hmq : (m.natAbs : ℚ) < (2 : ℚ) ^ (24 : ℤ) := by
        rw [show ((24 : ℤ)) = (((24 : ℕ)) : ℤ) by norm_num, two_zpow_coe]
        exact_mod_cast hm
      have h1 : |(m : ℚ) * 2 ^ k| < 2 ^ (k + 24) := by
        rw [habs]
        calc (m.natAbs : ℚ) * 2 ^ k < 2 ^ (24 : ℤ) * 2 ^ k :=
              mul_lt_mul_of_pos_right hmq (zpow_pos (by norm_num) k)
          _ = 2 ^ (k + 24) := by
              rw [← zpow_add₀ (two_ne_zero : (2 : ℚ) ≠ 0)]
              ring_nf
      have h2 : (2 : ℚ) ^ (k + 24) ≤ 2 ^ l :=
        zpow_le_zpow_right₀ (by norm_num) (by omega)
      linarith
    have ht : (0 : ℤ) ≤ k - (l - 23) := by omega
    have hpow : (2 : ℚ) ^ k / 2 ^ (l - 23) = ((2 ^ (k - (l - 23)).toNat : ℤ) : ℚ) := by
      rw [← zpow_sub₀ (two_ne_zero : (2 : ℚ) ≠ 0)]
      have h3 : ((2 ^ (k - (l - 23)).toNat : ℤ) : ℚ) =
          (2 : ℚ) ^ (((k - (l - 23)).toNat : ℕ) : ℤ) := by
        rw [two_zpow_coe]
        push_cast
        ring
      rw [h3, Int.toNat_of_nonneg ht]
    have hint : (m : ℚ) * 2 ^ k / 2 ^ (l - 23) =
        ((m * 2 ^ (k - (l - 23)).toNat : ℤ) : ℚ) := by
      rw [mul_div_assoc, hpow]
      push_cast
      ring
    rw [rn_eq_rhe _ hx, ← hldef, hint, rhe_intCast, ← hint,
      div_mul_cancel₀ _ (zpow_ne_zero _ (two_ne_zero : (2 : ℚ) ≠ 0))]

theorem rn_int {v : ℤ} (h : v.natAbs < 2 ^ 24) : rn (v : ℚ) = v := by
  have h2 := rn_exact (k := 0) h
  simpa using h2

theorem rn_natCast {n : ℕ} (h : n < 2 ^ 24) : rn (n : ℚ) = n := by
  have h2 := rn_int (v := (n : ℤ)) (by simpa using h)
  simpa using h2

theorem rn_half {v : ℤ} (h : v.natAbs < 2 ^ 24) : rn ((v : ℚ) / 2) = (v : ℚ) / 2 := by
  have h2 := rn_exact (k := -1) h
  rw [show ((2 : ℚ) ^ (-1 : ℤ)) = 1 / 2 by norm_num] at h2
  rw [show ((v : ℚ) / 2) = (v : ℚ) * (1 / 2) by ring]
  exact h2

theorem rn_nonneg {x : ℚ} (h : 0 ≤ x) : 0 ≤ rn x := by
  rcases h.eq_or_lt with rfl | hx
  · simp [rn]
  · rw [rn_eq_rhe x (ne_of_gt hx)]
    have h1 : ((0 : ℤ) : ℚ) ≤ x / 2 ^ (qfloorLog2 x - 23) := by
      have := div_pos hx (zpow_pos (by norm_num : (0 : ℚ) < 2) (qfloorLog2 x - 23))
      push_cast
      linarith
    have h2 := int_le_rhe h1
    have h3 : (0 : ℚ) ≤ (rhe (x / 2 ^ (qfloorLog2 x - 23)) : ℚ) := by exact_mod_cast h2
    exact mul_nonneg h3 (le_of_lt (zpow_pos (by norm_num) _))

theorem rn_nonpos {x : ℚ} (h : x ≤ 0) : rn x ≤ 0 := by
  rcases h.lt_or_eq with hx | rfl
  · rw [rn_eq_rhe x (ne_of_lt hx)]
    have h1 : x / 2 ^ (qfloorLog2 x - 23) ≤ ((0 : ℤ) : ℚ) := by
      have := div_nonpos_of_nonpos_of_nonneg (le_of_lt hx)
        (le_of_lt (zpow_pos (by norm_num : (0 : ℚ) < 2) (qfloorLog2 x - 23)))
      push_cast
      linarith
    have h2 := rhe_le_int h1
    have h3 : (rhe (x / 2 ^ (qfloorLog2 x - 23)) : ℚ) ≤ 0 := by exact_mod_cast h2
    exact mul_nonpos_of_nonpos_of_nonneg h3 (le_of_lt (zpow_pos (by norm_num) _))
  · simp [rn]

theorem zpow_shift (t : ℕ) (u v : ℤ) (h : (t : ℤ) + u = v) :
    ((2 ^ t : ℤ) : ℚ) * 2 ^ u = 2 ^ v := by
  rw [show ((2 ^ t : ℤ) : ℚ) = (2 : ℚ) ^ ((t : ℕ) : ℤ) by rw [two_zpow_coe]; push_cast; ring,
    ← zpow_add₀ (two_ne_zero : (2 : ℚ) ≠ 0), h]

theorem zpow_shift_neg (t : ℕ) (u v : ℤ) (h : (t : ℤ) + u = v) :
    ((-(2 ^ t) : ℤ) : ℚ) * 2 ^ u = -(2 ^ v) := by
  rw [Int.cast_neg, neg_mul, zpow_shift t u v h]

theorem rn_mono_pos {x y : ℚ} (hx : 0 < x) (hxy : x ≤ y) : rn x ≤ rn y := by
  have hy : 0 < y := lt_of_lt_of_le hx hxy
  obtain ⟨hx1, hx2⟩ := qfloorLog2_spec x (ne_of_gt hx)
  obtain ⟨hy1, hy2⟩ := qfloorLog2_spec y (ne_of_gt hy)
  rw [abs_of_pos hx] at hx1 hx2
  rw [abs_of_pos hy] at hy1 hy2
  set lx := qfloorLog2 x with hlx
  set ly := qfloorLog2 y with hly
  have hll : lx ≤ ly := by
    by_contra hc
    push_neg at hc
    have h1 : (2 : ℚ) ^ (ly + 1) ≤ 2 ^ lx :=
      zpow_le_zpow_right₀ (by norm_num) (by omega)
    linarith
  rw [rn_eq_rhe x (ne_of_gt hx), rn_eq_rhe y (ne_of_gt hy), ← hlx, ← hly]
  rcases hll.eq_or_lt with heq | hlt
  · rw [heq]
    have hdivle : x / 2 ^ (ly - 23) ≤ y / 2 ^ (ly - 23) := by
      gcongr
    have h2 := rhe_mono hdivle
    exact mul_le_mul_of_nonneg_right (by exact_mod_cast h2)
      (le_of_lt (zpow_pos (by norm_num) _))
  · have hponn : ∀ t : ℤ, (0 : ℚ) < (2 : ℚ) ^ t := fun t => zpow_pos (by norm_num) t
    have bx : (rhe (x / 2 ^ (lx - 23)) : ℚ) ≤ ((2 ^ 24 : ℤ) : ℚ) := by
      have hxd : x / 2 ^ (lx - 23) ≤ ((2 ^ 24 : ℤ) : ℚ) := by
        rw [div_le_iff (hponn _), zpow_shift 24 (lx - 23) (lx + 1) (by omega)]
        linarith
      exact_mod_cast rhe_le_int hxd
    have hby : ((2 ^ 23 : ℤ) : ℚ) ≤ (rhe (y / 2 ^ (ly - 23)) : ℚ) := by
      have hyd : ((2 ^ 23 : ℤ) : ℚ) ≤ y / 2 ^ (ly - 23) := by
        rw [le_div_iff (hponn _), zpow_shift 23 (ly - 23) ly (by omega)]
        linarith
      exact_mod_cast int_le_rhe hyd
    calc (rhe (x / 2 ^ (lx - 23)) : ℚ) * 2 ^ (lx - 23)
        ≤ ((2 ^ 24 : ℤ) : ℚ) * 2 ^ (lx - 23) :=
          mul_le_mul_of_nonneg_right bx (le_of_lt (hponn _))
      _ = 2 ^ (lx + 1) := zpow_shift 24 (lx - 23) (lx + 1) (by omega)
      _ ≤ 2 ^ ly := zpow_le_zpow_right₀ (by norm_num) (by omega)
      _ = ((2 ^ 23 : ℤ) : ℚ) * 2 ^ (ly - 23) := (zpow_shift 23 (ly - 23) ly (by omega)).symm
      _ ≤ (rhe (y / 2 ^ (ly - 23)) : ℚ) * 2 ^ (ly - 23) :=
          mul_le_mul_of_nonneg_right hby (le_of_lt (hponn _))

theorem rn_mono_neg {x y : ℚ} (hy : y < 0) (hxy : x ≤ y) : rn x ≤ rn y := by
  have hx : x < 0 := lt_of_le_of_lt hxy hy
  obtain ⟨hx1, hx2⟩ := qfloorLog2_spec x (ne_of_lt hx)
  obtain ⟨hy1, hy2⟩ := qfloorLog2_spec y (ne_of_lt hy)
  rw [abs_of_neg hx] at hx1 hx2
  rw [abs_of_neg hy] at hy1 hy2
  set lx := qfloorLog2 x with hlx
  set ly := qfloorLog2 y with hly
  have hll : ly ≤ lx := by
    by_contra hc
    push_neg at hc
    have h1 : (2 : ℚ) ^ (lx + 1) ≤ 2 ^ ly :=
      zpow_le_zpow_right₀ (by norm_num) (by omega)
    linarith
  rw [rn_eq_rhe x (ne_of_lt hx), rn_eq_rhe y (ne_of_lt hy), ← hlx, ← hly]
  rcases hll.eq_or_lt with heq | hlt
  · rw [← heq]
    have hdivle : x / 2 ^ (ly - 23) ≤ y / 2 ^ (ly - 23) := by
      gcongr
    have h2 := rhe_mono hdivle
    exact mul_le_mul_of_nonneg_right (by exact_mod_cast h2)
      (le_of_lt (zpow_pos (by norm_num) _))
  · have hponn : ∀ t : ℤ, (0 : ℚ) < (2 : ℚ) ^ t := fun t => zpow_pos (by norm_num) t
    have bx : (rhe (x / 2 ^ (lx - 23)) : ℚ) ≤ ((-(2 ^ 23) : ℤ) : ℚ) := by
      have hxd : x / 2 ^ (lx - 23) ≤ ((-(2 ^ 23) : ℤ) : ℚ) := by
        rw [div_le_iff (hponn _), zpow_shift_neg 23 (lx - 23) lx (by omega)]
        linarith
      exact_mod_cast rhe_le_int hxd
    have hby : ((-(2 ^ 24) : ℤ) : ℚ) ≤ (rhe (y / 2 ^ (ly - 23)) : ℚ) := by
      have hyd : ((-(2 ^ 24) : ℤ) : ℚ) ≤ y / 2 ^ (ly - 23) := by
        rw [le_div_iff (hponn _), zpow_shift_neg 24 (ly - 23) (ly + 1) (by omega)]
        linarith
      exact_mod_cast int_le_rhe hyd
    calc (rhe (x / 2 ^ (lx - 23)) : ℚ) * 2 ^ (lx - 23)
        ≤ ((-(2 ^ 23) : ℤ) : ℚ) * 2 ^ (lx - 23) :=
          mul_le_mul_of_nonneg_right bx (le_of_lt (hponn _))
      _ = -(2 ^ lx) := zpow_shift_neg 23 (lx - 23) lx (by omega)
      _ ≤ -(2 ^ (ly + 1)) := by
          have h2 := zpow_le_zpow_right₀ (a := (2 : ℚ)) (by norm_num)
            (show ly + 1 ≤ lx by omega)
          linarith
      _ = ((-(2 ^ 24) : ℤ) : ℚ) * 2 ^ (ly - 23) :=
          (zpow_shift_neg 24 (ly - 23) (ly + 1) (by omega)).symm
      _ ≤ (rhe (y / 2 ^ (ly - 23)) : ℚ) * 2 ^ (ly - 23) :=
          mul_le_mul_of_nonneg_right hby (le_of_lt (hponn _))

theorem rn_mono {x y : ℚ} (h : x ≤ y) : rn x ≤ rn y := by
  rcases lt_trichotomy (0 : ℚ) x with hx | hx | hx
  · exact rn_mono_pos hx h
  · rw [← hx]
    rw [rn_zero]
    exact rn_nonneg (hx ▸ h)
  · rcases lt_trichotomy y 0 with hy | hy | hy
    · exact rn_mono_neg hy h
    · rw [hy, rn_zero]
      exact rn_nonpos (le_of_lt hx)
    · calc rn x ≤ 0 := rn_nonpos (le_of_lt hx)
        _ ≤ rn y := rn_nonneg (le_of_lt hy)

theorem qfloorLog2_unique {x : ℚ} (hx : x ≠ 0) {l : ℤ}
    (h1 : (2 : ℚ) ^ l ≤ |x|) (h2 : |x| < 2 ^ (l + 1)) : qfloorLog2 x = l := by
  obtain ⟨g1, g2⟩ := qfloorLog2_spec x hx
  by_contra hne
  rcases lt_or_gt_of_ne hne with hlt | hgt
  · have h3 : (2 : ℚ) ^ (qfloorLog2 x + 1) ≤ 2 ^ l :=
      zpow_le_zpow_right₀ (by norm_num) (by omega)
    linarith
  · have h3 : (2 : ℚ) ^ (l + 1) ≤ 2 ^ qfloorLog2 x :=
      zpow_le_zpow_right₀ (by norm_num) (by omega)
    linarith

theorem rn_eval {x : ℚ} {l : ℤ} (hx : 0 < x) (h1 : (2 : ℚ) ^ l ≤ x)
    (h2 : x < 2 ^ (l + 1)) :
    rn x = (rhe (x / 2 ^ (l - 23)) : ℚ) * 2 ^ (l - 23) := by
  have hu : qfloorLog2 x = l :=
    qfloorLog2_unique (ne_of_gt hx) (by rwa [abs_of_pos hx]) (by rwa [abs_of_pos hx])
  rw [rn_eq_rhe x (ne_of_gt hx), hu]

theorem floor_12497500 : ⌊(99980001 / 8 : ℚ)⌋ = 12497500 := by
  rw [Int.floor_eq_iff]
  constructor <;> norm_num

theorem rhe_12497500 : rhe (99980001 / 8 : ℚ) = 12497500 := by
  rw [rhe, floor_12497500, if_pos (by norm_num)]

theorem rn_99980001 : rn (99980001 : ℚ) = 99980000 := by
  have h := rn_eval (x := 99980001) (l := ((26 : ℕ) : ℤ)) (by norm_num)
    (by rw [two_zpow_coe]; norm_num)
    (by rw [show ((26 : ℕ) : ℤ) + 1 = ((27 : ℕ) : ℤ) by norm_cast, two_zpow_coe]
        norm_num)
  rw [show ((26 : ℕ) : ℤ) - 23 = ((3 : ℕ) : ℤ) by norm_cast, two_zpow_coe] at h
  norm_num at h
  rw [h, rhe_12497500]
  norm_num

theorem rn_half_99980001 : rn ((99980001 : ℚ) / 2) = 49990000 := by
  have h := rn_eval (x := (99980001 : ℚ) / 2) (l := ((25 : ℕ) : ℤ)) (by norm_num)
    (by rw [two_zpow_coe]; norm_num)
    (by rw [show ((25 : ℕ) : ℤ) + 1 = ((26 : ℕ) : ℤ) by norm_cast, two_zpow_coe]
        norm_num)
  rw [show ((25 : ℕ) : ℤ) - 23 = ((2 : ℕ) : ℤ) by norm_cast, two_zpow_coe] at h
  norm_num at h
  rw [h, rhe_12497500]
  norm_num

theorem rn_num (n : ℕ) (x : ℚ) (h1 : n < 2 ^ 24) (h2 : (n : ℚ) = x) : rn x = x := by
  subst h2
  exact rn_natCast h1

theorem rn_int_num (v : ℤ) (x : ℚ) (h1 : v.natAbs < 2 ^ 24) (h2 : (v : ℚ) = x) :
    rn x = x := by
  subst h2
  exact rn_int h1

theorem rn_half_num (v : ℤ) (x : ℚ) (h1 : v.natAbs < 2 ^ 24) (h2 : (v : ℚ) / 2 = x) :
    rn x = x := by
  subst h2
  exact rn_half h1

theorem rn_dyadic_num (m : ℤ) (t : ℕ) (x : ℚ) (h1 : m.natAbs < 2 ^ 24)
    (h2 : (m : ℚ) * ((2 ^ t : ℕ) : ℚ) = x) : rn x = x := by
  subst h2
  rw [← two_zpow_coe]
  exact rn_exact h1

/-- The statistics follow the exact closed forms whenever no rounding
can occur: min always (the sum fits the significand), max when the dice
count times the face count is at most 2 ^ 23, ev when the dice count
times the face count plus one is at most 2 ^ 23. -/
theorem stats_exact (r : Roll) (hd : r.num_dice ≤ 65535) (hf : r.num_faces ≤ 65535)
    (he1 : -32768 ≤ r.extra) (he2 : r.extra ≤ 32767) :
    r.min = (r.num_dice : ℚ) + (r.extra : ℚ) ∧
    (r.num_dice * r.num_faces ≤ 2 ^ 23 →
      r.max = (r.num_dice : ℚ) * (r.num_faces : ℚ) + (r.extra : ℚ)) ∧
    (r.num_dice * (r.num_faces + 1) ≤ 2 ^ 23 →
      r.ev = (r.num_dice : ℚ) * ((r.num_faces : ℚ) + 1) / 2 + (r.extra : ℚ)) := by
  obtain ⟨nd, nf, e⟩ := r
  simp only at hd hf he1 he2
  have hnd : rn (nd : ℚ) = (nd : ℚ) := rn_natCast (by omega)
  have hnf : rn (nf : ℚ) = (nf : ℚ) := rn_natCast (by omega)
  have he : rn (e : ℚ) = (e : ℚ) := rn_int (by omega)
  refine ⟨?_, ?_, ?_⟩
  · simp only [Roll.min, Roll.float_values, fadd, hnd, he]
    exact rn_int_num ((nd : ℤ) + e) ((nd : ℚ) + (e : ℚ)) (by omega) (by push_cast; ring)
  · intro hm
    simp only at hm
    simp only [Roll.max, Roll.float_values, fadd, fmul, hnd, hnf, he]
    rw [rn_num (nd * nf) ((nd : ℚ) * (nf : ℚ)) (by omega) (by push_cast; ring)]
    exact rn_int_num (((nd * nf : ℕ) : ℤ) + e) ((nd : ℚ) * (nf : ℚ) + (e : ℚ)) (by omega)
      (by push_cast; ring)
  · intro hm
    simp only at hm
    simp only [Roll.ev, Roll.float_values, fadd, fmul, fdiv, hnd, hnf, he]
    rw [rn_num (nf + 1) ((nf : ℚ) + 1) (by omega) (by push_cast; ring)]
    rw [rn_half_num ((nf + 1 : ℕ) : ℤ) (((nf : ℚ) + 1) / 2) (by omega) (by push_cast; ring)]
    rw [rn_half_num ((nd * (nf + 1) : ℕ) : ℤ) ((nd : ℚ) * (((nf : ℚ) + 1) / 2)) (by omega)
      (by push_cast; ring)]
    rw [rn_half_num (((nd * (nf + 1) : ℕ) : ℤ) + 2 * e)
      ((nd : ℚ) * (((nf : ℚ) + 1) / 2) + (e : ℚ)) (by omega) (by push_cast; ring)]
    ring

/-- C5 counterexample: the f32 statistics differ from the exact closed
forms at parse-reachable rolls.  For 9999d9999 the product
9999 * 9999 = 99980001 is odd and lies in a binade of ulp 8, so max
returns the rounded 99980000; for 9999d9998 the exact ev is 49990000.5,
which rounds (ties to even) to 49990000. -/
theorem claim5_f32_rounding_cex :
    (Roll.mk 9999 9999 0).max = 99980000 ∧
    (Roll.mk 9999 9999 0).max ≠
      ((Roll.mk 9999 9999 0).num_dice : ℚ) * ((Roll.mk 9999 9999 0).num_faces : ℚ) +
        ((Roll.mk 9999 9999 0).extra : ℚ) ∧
    (Roll.mk 9999 9998 0).ev = 49990000 ∧
    (Roll.mk 9999 9998 0).ev ≠
      ((Roll.mk 9999 9998 0).num_dice : ℚ) * (((Roll.mk 9999 9998 0).num_faces : ℚ) + 1) / 2 +
        ((Roll.mk 9999 9998 0).extra : ℚ) := by
  have hmax : (Roll.mk 9999 9999 0).max = 99980000 := by
    simp only [Roll.max, Roll.float_values, fadd, fmul]
    push_cast
    rw [rn_num 9999 (9999 : ℚ) (by norm_num) (by push_cast; ring)]
    rw [rn_num 0 (0 : ℚ) (by norm_num) (by push_cast; ring)]
    rw [show (9999 : ℚ) * 9999 = 99980001 by norm_num, rn_99980001, add_zero]
    exact rn_dyadic_num 3124375 5 (99980000 : ℚ) (by norm_num) (by push_cast; norm_num)
  have hev : (Roll.mk 9999 9998 0).ev = 49990000 := by
    simp only [Roll.ev, Roll.float_values, fadd, fmul, fdiv]
    push_cast
    rw [rn_num 9999 (9999 : ℚ) (by norm_num) (by push_cast; ring)]
    rw [rn_num 9998 (9998 : ℚ) (by norm_num) (by push_cast; ring)]
    rw [rn_num 0 (0 : ℚ) (by norm_num) (by push_cast; ring)]
    rw [show (9998 : ℚ) + 1 = 9999 by norm_num]
    rw [rn_num 9999 (9999 : ℚ) (by norm_num) (by push_cast; ring)]
    rw [rn_half_num 9999 ((9999 : ℚ) / 2) (by norm_num) (by push_cast; ring)]
    rw [show (9999 : ℚ) * ((9999 : ℚ) / 2) = (99980001 : ℚ) / 2 by norm_num]
    rw [rn_half_99980001, add_zero]
    exact rn_dyadic_num 3124375 4 (49990000 : ℚ) (by norm_num) (by push_cast; norm_num)
  refine ⟨hmax, ?_, hev, ?_⟩
  · rw [hmax]
    push_cast
    norm_num
  · rw [hev]
    push_cast
    norm_num

/-- C5 amended: min = num_dice + extra holds for every u16/i16-ranged
Roll, max = num_dice * num_faces + extra holds whenever
num_dice * num_faces ≤ 2 ^ 23, and
ev = num_dice * (num_faces + 1) / 2 + extra holds whenever
num_dice * (num_faces + 1) ≤ 2 ^ 23, with the extra added exactly once;
outside those bounds the f32 results can round (C5 counterexample).  In
particular 1d6 has min 1, max 6 and ev 3.5. -/
theorem claim5_statistics_amended :
    (∀ r : Roll, r.num_dice ≤ 65535 → r.num_faces ≤ 65535 →
      -32768 ≤ r.extra → r.extra ≤ 32767 →
      r.min = (r.num_dice : ℚ) + (r.extra : ℚ) ∧
      (r.num_dice * r.num_faces ≤ 2 ^ 23 →
        r.max = (r.num_dice : ℚ) * (r.num_faces : ℚ) + (r.extra : ℚ)) ∧
      (r.num_dice * (r.num_faces + 1) ≤ 2 ^ 23 →
        r.ev = (r.num_dice : ℚ) * ((r.num_faces : ℚ) + 1) / 2 + (r.extra : ℚ))) ∧
    (Roll.mk 1 6 0).min = 1 ∧ (Roll.mk 1 6 0).max = 6 ∧
    (Roll.mk 1 6 0).ev = 7 / 2 := by
  refine ⟨stats_exact, ?_, ?_, ?_⟩
  · obtain ⟨hmin, _, _⟩ :=
      stats_exact (Roll.mk 1 6 0) (by decide) (by decide) (by decide) (by decide)
    rw [hmin]
    norm_num
  · obtain ⟨_, hmax, _⟩ :=
      stats_exact (Roll.mk 1 6 0) (by decide) (by decide) (by decide) (by decide)
    rw [hmax (by decide)]
    norm_num
  · obtain ⟨_, _, hev⟩ :=
      stats_exact (Roll.mk 1 6 0) (by decide) (by decide) (by decide) (by decide)
    rw [hev (by decide)]
    norm_num

/-- C5 amended witness: the closed forms instantiated at the roll 2d4+1,
whose statistics are min 3, max 9 and ev 6. -/
theorem claim5_statistics_amended_witness :
    (Roll.mk 2 4 1).min = 3 ∧ (Roll.mk 2 4 1).max = 9 ∧
    (Roll.mk 2 4 1).ev = 6 := by
  obtain ⟨h1, h2, h3⟩ := claim5_statistics_amended.1 (Roll.mk 2 4 1)
    (by decide) (by decide) (by decide) (by decide)
  refine ⟨?_, ?_, ?_⟩
  · rw [h1]
    norm_num
  · rw [h2 (by decide)]
    norm_num
  · rw [h3 (by decide)]
    norm_num

/-- C6: for every roll with at least one die, at least one face,
u16-ranged counts and i16-ranged extra, the f32 statistics are ordered
min ≤ ev ≤ max: the roundings are monotone, so the exact ordering
survives them. -/
theorem claim6_min_le_ev_le_max (r : Roll) (h1 : 1 ≤ r.num_dice) (hd : r.num_dice ≤ 65535)
    (h2 : 1 ≤ r.num_faces) (hf : r.num_faces ≤ 65535)
    (he1 : -32768 ≤ r.extra) (he2 : r.extra ≤ 32767) :
    r.min ≤ r.ev ∧ r.ev ≤ r.max := by
  obtain ⟨nd, nf, e⟩ := r
  simp only at h1 hd h2 hf he1 he2
  have hnd : rn (nd : ℚ) = (nd : ℚ) := rn_natCast (by omega)
  have hnf : rn (nf : ℚ) = (nf : ℚ) := rn_natCast (by omega)
  have he : rn (e : ℚ) = (e : ℚ) := rn_int (by omega)
  simp only [Roll.min, Roll.ev, Roll.max, Roll.float_values, fadd, fmul, fdiv, hnd, hnf, he]
  rw [rn_num (nf + 1) ((nf : ℚ) + 1) (by omega) (by push_cast; ring)]
  rw [rn_half_num ((nf + 1 : ℕ) : ℤ) (((nf : ℚ) + 1) / 2) (by omega) (by push_cast; ring)]
  have h1q : (1 : ℚ) ≤ (nd : ℚ) := by exact_mod_cast h1
  have h2q : (1 : ℚ) ≤ (nf : ℚ) := by exact_mod_cast h2
  have hstep1 : (nd : ℚ) ≤ rn ((nd : ℚ) * (((nf : ℚ) + 1) / 2)) := by
    calc (nd : ℚ) = rn (nd : ℚ) := hnd.symm
      _ ≤ rn ((nd : ℚ) * (((nf : ℚ) + 1) / 2)) := rn_mono (by nlinarith)
  have hstep2 : rn ((nd : ℚ) * (((nf : ℚ) + 1) / 2)) ≤ rn ((nd : ℚ) * (nf : ℚ)) :=
    rn_mono (by nlinarith)
  constructor
  · exact rn_mono (by linarith)
  · exact rn_mono (by linarith)

/-- C6 witness: the ordering instantiated at the roll 2d4+1. -/
theorem claim6_min_le_ev_le_max_witness :
    (1 ≤ (Roll.mk 2 4 1).num_dice ∧ (Roll.mk 2 4 1).num_dice ≤ 65535 ∧
      1 ≤ (Roll.mk 2 4 1).num_faces ∧ (Roll.mk 2 4 1).num_faces ≤ 65535 ∧
      -32768 ≤ (Roll.mk 2 4 1).extra ∧ (Roll.mk 2 4 1).extra ≤ 32767) ∧
    (Roll.mk 2 4 1).min ≤ (Roll.mk 2 4 1).ev ∧
    (Roll.mk 2 4 1).ev ≤ (Roll.mk 2 4 1).max :=
  ⟨⟨by decide, by decide, by decide, by decide, by decide, by decide⟩,
    claim6_min_le_ev_le_max (Roll.mk 2 4 1) (by decide) (by decide) (by decide)
      (by decide) (by decide) (by decide)⟩

end Ev
